import Mathlib

/-!
Verification of the `map_tuple` crate (src/src/lib.rs).

The crate generates, for every supported tuple size `S` and index `i < S`,
an implementation of `InternalTupleMap<INDEX, R, F>` whose
`internal_map_tuple` destructures the tuple, applies `f` to the element at
position `INDEX`, and rebuilds the tuple with that one slot replaced by the
result.  The public trait `TupleMap` provides `mapt::<INDEX>`, which
forwards to `internal_map_tuple`.

Shallow embedding: a heterogeneous tuple of Rust type `(T0, ..., T_{S-1})`
is an `HList` indexed by the list of its element types.  The family of
generated `internal_map_tuple` bodies (one per `(S, INDEX)` pair, each a
direct destructure/rebuild) is embedded as one structurally recursive Lean
function over that index list: peeling one leading element at a time
reproduces exactly what each generated body does with the elements before,
at and after the selected position.  Two further views of the same
generated body are used where a claim is about effects rather than values:
a state-passing view (the transformation function threads the state it
captures) and an error-tracking view (any construct that could fail at
runtime would surface as `Except.error`).  The combinatorial expansion of
the `impl_trait!` invocations themselves is modelled separately as the list
of `(size, INDEX)` pairs each arm emits.
-/

namespace MapTuple

/-- A heterogeneous list: the value-level embedding of a Rust tuple
`(T0, ..., T_{S-1})`, indexed by its list of element types. -/
inductive HList : List (Type) → Type 1
  | nil : HList []
  | cons {α : Type} {ts : List Type} : α → HList ts → HList (α :: ts)

/-- Element access `t.i` on a tuple: the component at position `i`, whose
type is `ts[i]`. -/
def HList.get : {ts : List Type} → HList ts → (i : Nat) → (hi : i < ts.length) → ts[i]
  | [], _, _, hi => absurd hi (Nat.not_lt_zero _)
  | _ :: _, .cons x _, 0, _ => x
  | _ :: _, .cons _ xs, i + 1, hi => xs.get i (Nat.lt_of_succ_lt_succ hi)

/-- Embedding of the generated `internal_map_tuple` bodies (src/src/lib.rs
lines 88-99, 106-120, 125-142 and 144-159: every arm of `impl_trait!` emits
the same body shape): destructure the tuple, apply `f` to the element at
position `INDEX`, rebuild with that slot holding the result.  The `Output`
associated type `(T0, ..., R at INDEX, ...)` is `HList (ts.set i R)`. -/
def internal_map_tuple {R : Type} :
    {ts : List Type} → (i : Nat) → HList ts → (hi : i < ts.length) →
    (ts[i] → R) → HList (ts.set i R)
  | [], _, _, hi, _ => absurd hi (Nat.not_lt_zero _)
  | _ :: _, 0, .cons x xs, _, f => .cons (f x) xs
  | _ :: _, i + 1, .cons x xs, hi, f =>
      .cons x (internal_map_tuple i xs (Nat.lt_of_succ_lt_succ hi) f)

/-- Embedding of the blanket impl `impl<T, R, F> TupleMap<R, F> for T`
(src/src/lib.rs lines 69-78): `mapt::<INDEX>` forwards `self` and `f` to
`<T as InternalTupleMap<INDEX, R, F>>::internal_map_tuple`. -/
def mapt {R : Type} {ts : List Type} (i : Nat) (t : HList ts)
    (hi : i < ts.length) (f : ts[i] → R) : HList (ts.set i R) :=
  internal_map_tuple i t hi f

/-- State-passing embedding of the same generated bodies, for a
transformation function with an observable effect on state it captures.
Effectful Rust code is embedded by explicit state passing: `f` takes and
returns the captured state alongside its argument and result, and is
applied at the single syntactic call site `f([<self $curr>])` of the
generated body. -/
def internal_map_tuple_st {R σ : Type} :
    {ts : List Type} → (i : Nat) → HList ts → (hi : i < ts.length) →
    (ts[i] → σ → R × σ) → σ → HList (ts.set i R) × σ
  | [], _, _, hi, _, _ => absurd hi (Nat.not_lt_zero _)
  | _ :: _, 0, .cons x xs, _, f, s =>
      (HList.cons (f x s).1 xs, (f x s).2)
  | _ :: _, i + 1, .cons x xs, hi, f, s =>
      (HList.cons x (internal_map_tuple_st i xs (Nat.lt_of_succ_lt_succ hi) f s).1,
       (internal_map_tuple_st i xs (Nat.lt_of_succ_lt_succ hi) f s).2)

/-- Error-tracking embedding of the same generated bodies: any construct
that could fail at runtime would surface as `.error`.  The generated body
(an irrefutable destructure, one call of `f`, a rebuild) has no failing
construct of its own, so the only possible error source is `f` itself. -/
def internal_map_tuple_checked {R : Type} :
    {ts : List Type} → (i : Nat) → HList ts → (hi : i < ts.length) →
    (ts[i] → Except String R) → Except String (HList (ts.set i R))
  | [], _, _, hi, _ => absurd hi (Nat.not_lt_zero _)
  | _ :: _, 0, .cons x xs, _, f => (f x).map (fun r => HList.cons r xs)
  | _ :: _, i + 1, .cons x xs, hi, f =>
      (internal_map_tuple_checked i xs (Nat.lt_of_succ_lt_succ hi) f).map
        (fun ys => HList.cons x ys)

/-- Bit-level model of Rust `f32`.  The crate doc example carries a `1.0f32`
value through positions the mapping never touches, so only its identity
matters; it is modelled by its IEEE-754 bit pattern. -/
structure F32 where
  bits : Nat
deriving DecidableEq

/-- The bit pattern of `1.0f32`. -/
def f32_one : F32 := ⟨0x3F800000⟩

/-- The input tuple `(0i32, 1.0f32, 2i32, true, 4i32)` of the crate doc
example (src/src/lib.rs lines 4-14); `i32`/`i64` values are embedded as
`Int` (no arithmetic in the example comes near the 32- or 64-bit bounds). -/
def doc_example_input : HList [Int, F32, Int, Bool, Int] :=
  .cons 0 (.cons f32_one (.cons 2 (.cons true (.cons 4 .nil))))

/-- The calling conventions a transformation function can have in Rust: a
plain `fn` reference, a closure capturing nothing, a closure needing only
shared access to captured state, and a closure requiring exclusive mutable
access to captured state. -/
inductive CallKind : Type
  | fnRef
  | closureNoCapture
  | closureSharedCapture
  | closureMutCapture
deriving DecidableEq

/-- Which calling conventions satisfy an `F: Fn(T) -> R` trait bound: `fn`
references and closures needing at most shared access to their captures
implement `Fn`; a closure that mutates its captures implements only
`FnMut` and `FnOnce`, never `Fn`. -/
def implsFn : CallKind → Bool
  | .fnRef => true
  | .closureNoCapture => true
  | .closureSharedCapture => true
  | .closureMutCapture => false

/-- Every generated impl bounds the transformation function by
`F: Fn([<T $curr>]) -> R` (src/src/lib.rs line 91 and the matching line of
each other `impl_trait!` arm), so a call of the mapping operation
type-checks exactly for the calling conventions satisfying `Fn`. -/
def mapt_accepts (k : CallKind) : Bool := implsFn k

/-- The four cargo features selecting a size tier. -/
structure Features where
  tuple16 : Bool
  tuple32 : Bool
  tuple64 : Bool
  tuple128 : Bool

/-- cfg gate of the default `impl_trait!(0, ..., 7)` invocation
(src/src/lib.rs lines 162-168): no tier feature enabled. -/
def cfg_default (c : Features) : Bool :=
  !c.tuple16 && !c.tuple32 && !c.tuple64 && !c.tuple128

/-- cfg gate of the tuple16 invocation (src/src/lib.rs lines 169-175). -/
def cfg_tuple16 (c : Features) : Bool :=
  c.tuple16 && !c.tuple32 && !c.tuple64 && !c.tuple128

/-- cfg gate of the tuple32 invocation (src/src/lib.rs lines 176-184). -/
def cfg_tuple32 (c : Features) : Bool :=
  c.tuple32 && !c.tuple64 && !c.tuple128

/-- cfg gate of the tuple64 invocation (src/src/lib.rs line 185). -/
def cfg_tuple64 (c : Features) : Bool :=
  c.tuple64 && !c.tuple128

/-- cfg gate of the tuple128 invocation (src/src/lib.rs line 191). -/
def cfg_tuple128 (c : Features) : Bool :=
  c.tuple128

/-- The maximum tuple sizes of the `impl_trait!` invocations whose cfg gate
holds in a build: the five gated invocations list the index literals
`0, ..., 7`, `0, ..., 15`, `0, ..., 31`, `0, ..., 63` and `0, ..., 127`,
i.e. maximum sizes 8, 16, 32, 64 and 128. -/
def activeTierSizes (c : Features) : List Nat :=
  (if cfg_default c then [8] else []) ++
  (if cfg_tuple16 c then [16] else []) ++
  (if cfg_tuple32 c then [32] else []) ++
  (if cfg_tuple64 c then [64] else []) ++
  (if cfg_tuple128 c then [128] else [])

/-- Model of the cutting arms of `impl_trait!` (src/src/lib.rs lines
124-142 and 144-159), invoked as `impl_trait!(c ($starter) $curr, $rest)`.
With two or more literals after the parenthesised `$starter` list it emits
one impl for the tuple `($starter, $curr, $next, $finisher)` at index
`$curr` and recurses with `$next` dropped; with `$curr` alone it emits the
impl for `($starter, $curr,)`.  Each emitted impl is recorded as its
(tuple size, INDEX) pair. -/
def impl_trait_c (starter : List Nat) (curr : Nat) : List Nat → List (Nat × Nat)
  | [] => [(starter.length + 1, curr)]
  | _next :: finisher =>
      (starter.length + 2 + finisher.length, curr) :: impl_trait_c starter curr finisher

/-- Model of the shifting arms of `impl_trait!` (src/src/lib.rs lines
83-122): `impl_trait!($all)` starts as `impl_trait!(s () $all)`; with two
or more remaining literals it emits the impl for the full tuple at index
`$curr`, hands `($starter) $curr` with `$next` dropped to the cutting arm,
and shifts `$curr` onto `$starter`; with one literal left it emits the
final impl for `($starter, $curr,)`. -/
def impl_trait_s (starter : List Nat) : List Nat → List (Nat × Nat)
  | [] => []
  | [curr] => [(starter.length + 1, curr)]
  | curr :: next :: finisher =>
      ((starter.length + 2 + finisher.length, curr) :: impl_trait_c starter curr finisher)
        ++ impl_trait_s (starter ++ [curr]) (next :: finisher)

/-- The (size, INDEX) pairs of the impls generated by `impl_trait!` when it
is invoked with the literals `0, 1, ..., n - 1`, as the five cfg-gated
invocations at src/src/lib.rs lines 162-199 do for n = 8, 16, 32, 64, 128. -/
def generatedPairs (n : Nat) : List (Nat × Nat) :=
  impl_trait_s [] (List.range n)

/-- A concrete two-element tuple `(5usize, true)` used by the witnesses. -/
def witness_pair : HList [Nat, Bool] :=
  .cons 5 (.cons true .nil)

/-- Reading the selected position of the mapped tuple gives `f` applied to
the original element there. -/
theorem get_internal_map_self {R : Type} : ∀ {ts : List Type} (i : Nat)
    (t : HList ts) (hi : i < ts.length) (f : ts[i] → R)
    (hi2 : i < (ts.set i R).length),
    HEq ((internal_map_tuple i t hi f).get i hi2) (f (t.get i hi))
  | [], _, _, hi, _, _ => absurd hi (Nat.not_lt_zero _)
  | _ :: _, 0, .cons _ _, _, _, _ => HEq.rfl
  | _ :: _, i + 1, .cons _ xs, hi, f, hi2 =>
      get_internal_map_self i xs (Nat.lt_of_succ_lt_succ hi) f
        (Nat.lt_of_succ_lt_succ hi2)

/-- Reading any non-selected position of the mapped tuple gives the
original element there. -/
theorem get_internal_map_ne {R : Type} : ∀ {ts : List Type} (i j : Nat)
    (t : HList ts) (hi : i < ts.length) (hj : j < ts.length) (f : ts[i] → R)
    (hj2 : j < (ts.set i R).length), j ≠ i →
    HEq ((internal_map_tuple i t hi f).get j hj2) (t.get j hj)
  | [], _, _, _, hi, _, _, _, _ => absurd hi (Nat.not_lt_zero _)
  | _ :: _, 0, 0, .cons _ _, _, _, _, _, hne => absurd rfl hne
  | _ :: _, 0, _ + 1, .cons _ _, _, _, _, _, _ => HEq.rfl
  | _ :: _, _ + 1, 0, .cons _ _, _, _, _, _, _ => HEq.rfl
  | _ :: _, i + 1, j + 1, .cons _ xs, hi, hj, f, hj2, hne =>
      get_internal_map_ne i j xs (Nat.lt_of_succ_lt_succ hi)
        (Nat.lt_of_succ_lt_succ hj) f (Nat.lt_of_succ_lt_succ hj2)
        (fun h => hne (congrArg Nat.succ h))

/-- The final state of the state-passing run is the state the single `f`
call leaves behind. -/
theorem internal_map_tuple_st_snd {R σ : Type} : ∀ {ts : List Type} (i : Nat)
    (t : HList ts) (hi : i < ts.length) (f : ts[i] → σ → R × σ) (s : σ),
    (internal_map_tuple_st i t hi f s).2 = (f (t.get i hi) s).2
  | [], _, _, hi, _, _ => absurd hi (Nat.not_lt_zero _)
  | _ :: _, 0, .cons _ _, _, _, _ => rfl
  | _ :: _, i + 1, .cons _ xs, hi, f, s =>
      internal_map_tuple_st_snd i xs (Nat.lt_of_succ_lt_succ hi) f s

/-- The tuple produced by the state-passing run is the pure mapping with
`f` read at the initial state. -/
theorem internal_map_tuple_st_fst {R σ : Type} : ∀ {ts : List Type} (i : Nat)
    (t : HList ts) (hi : i < ts.length) (f : ts[i] → σ → R × σ) (s : σ),
    (internal_map_tuple_st i t hi f s).1
      = internal_map_tuple i t hi (fun x => (f x s).1)
  | [], _, _, hi, _, _ => absurd hi (Nat.not_lt_zero _)
  | _ :: _, 0, .cons _ _, _, _, _ => rfl
  | _ :: _, i + 1, .cons x xs, hi, f, s =>
      congrArg (HList.cons x)
        (internal_map_tuple_st_fst i xs (Nat.lt_of_succ_lt_succ hi) f s)

/-- Congruence of `HList.cons` over a propositional equality of tails. -/
theorem HList.cons_heq {α : Type} (x : α) {ts1 ts2 : List Type}
    (h : ts1 = ts2) {xs : HList ts1} {ys : HList ts2} (hxy : HEq xs ys) :
    HEq (HList.cons x xs) (HList.cons x ys) := by
  subst h
  cases hxy
  rfl

/-- Membership in the pairs a cutting arm emits: index `curr` at every
tuple size from `starter.length + 1` up to the full remaining width. -/
theorem impl_trait_c_mem : ∀ (finisher starter : List Nat) (curr s i : Nat),
    ((s, i) ∈ impl_trait_c starter curr finisher ↔
      i = curr ∧ starter.length + 1 ≤ s ∧ s ≤ starter.length + 1 + finisher.length) := by
  intro finisher
  induction finisher with
  | nil =>
    intro starter curr s i
    simp only [impl_trait_c, List.mem_singleton, Prod.mk.injEq, List.length_nil]
    omega
  | cons nx rest ih =>
    intro starter curr s i
    simp only [impl_trait_c, List.mem_cons, Prod.mk.injEq, ih, List.length_cons]
    omega

/-- Membership in the pairs the shifting recursion emits from state
`(starter, literals) = (range k, range' k m)`: every pair with
`k ≤ INDEX < size ≤ k + m`. -/
theorem impl_trait_s_range_mem : ∀ (m k s i : Nat), 0 < m →
    ((s, i) ∈ impl_trait_s (List.range k) (List.range' k m) ↔
      k ≤ i ∧ i < k + m ∧ i < s ∧ s ≤ k + m) := by
  intro m
  induction m with
  | zero => intro k s i h; exact absurd h (by omega)
  | succ m ih =>
    intro k s i _
    match m, ih with
    | 0, _ =>
      simp only [List.range'_succ, List.range'_zero, impl_trait_s,
        List.mem_singleton, Prod.mk.injEq, List.length_range]
      omega
    | m' + 1, ih =>
      rw [List.range'_succ, List.range'_succ]
      simp only [impl_trait_s, List.mem_append, List.mem_cons, Prod.mk.injEq]
      rw [← List.range'_succ, ← List.range_succ]
      rw [impl_trait_c_mem, ih (k + 1) s i (by omega)]
      simp only [List.length_range, List.length_range']
      omega

/-- An `impl_trait!(0, ..., n - 1)` invocation generates exactly the impls
for the pairs with `INDEX < size ≤ n`. -/
theorem generatedPairs_mem (n s i : Nat) (hn : 0 < n) :
    ((s, i) ∈ generatedPairs n ↔ i < n ∧ i < s ∧ s ≤ n) := by
  have h := impl_trait_s_range_mem n 0 s i hn
  simp only [List.range_zero] at h
  rw [← List.range_eq_range'] at h
  rw [generatedPairs, h]
  omega

/-- Claim C1: for every tuple arity, index `i` in range, tuple `t` and
function `f` applicable at position `i`, the mapping yields a tuple of the
same arity whose position `i` holds `f` of the original element and whose
every other position keeps its original value, type and place. -/
theorem C1_positional_purity {R : Type} {ts : List Type} (i : Nat)
    (t : HList ts) (hi : i < ts.length) (f : ts[i] → R) :
    (ts.set i R).length = ts.length ∧
    (∀ (hi2 : i < (ts.set i R).length),
      HEq ((internal_map_tuple i t hi f).get i hi2) (f (t.get i hi))) ∧
    (∀ j (hj : j < ts.length) (hj2 : j < (ts.set i R).length), j ≠ i →
      (ts.set i R)[j] = ts[j] ∧
      HEq ((internal_map_tuple i t hi f).get j hj2) (t.get j hj)) :=
  ⟨List.length_set ts i R,
   fun hi2 => get_internal_map_self i t hi f hi2,
   fun j hj hj2 hne =>
     ⟨List.getElem_set_ne (Ne.symm hne) hj2,
      get_internal_map_ne i j t hi hj f hj2 hne⟩⟩

/-- Witness for C1 on the concrete tuple `(5, true)` at index 1 with
negation: the selected slot becomes `!true` and slot 0 keeps its value. -/
theorem C1_witness :
    (1 < 2) ∧
    HEq ((internal_map_tuple 1 witness_pair (by decide) Bool.not).get 1 (by decide))
      (Bool.not (witness_pair.get 1 (by decide))) ∧
    HEq ((internal_map_tuple 1 witness_pair (by decide) Bool.not).get 0 (by decide))
      (witness_pair.get 0 (by decide)) :=
  ⟨by decide,
   (C1_positional_purity 1 witness_pair (by decide) Bool.not).2.1 (by decide),
   ((C1_positional_purity 1 witness_pair (by decide) Bool.not).2.2 0
     (by decide) (by decide) (by decide)).2⟩

/-- Claim C2: the crate doc example: mapping `(0i32, 1.0f32, 2i32, true,
4i32)` at index 3 by `if val then 3i64 else 0`, then at index 0 by
`to_string`, then at index 1 by `Some`, then at index 4 by `val > 3`
yields exactly `("0", Some(1.0f32), 2i32, 3i64, true)`. -/
theorem C2_doc_example :
    mapt 4
      (mapt 1
        (mapt 0
          (mapt 3 doc_example_input (by decide)
            (fun val : Bool => if val then (3 : Int) else 0))
          (by decide) (fun val : Int => toString val))
        (by decide) (fun val : F32 => some val))
      (by decide) (fun val : Int => decide (val > 3))
    = .cons "0" (.cons (some f32_one) (.cons 2 (.cons 3 (.cons true .nil)))) := by
  rfl

/-- Claim C3: each invocation of the mapping operation calls the supplied
transformation function exactly once, and with exactly the element at the
selected position as its single argument.  The generated body is generic
in the function's result type, so its call discipline is observed by
running the same body with the call-log instrumentation
`fun x log => (g x, log ++ [x])`: starting from the empty log, the final
log is exactly the one-element list holding the selected element — one
call, on exactly `t[i]` — and the produced tuple is the pure mapping.
The call discipline therefore also respects a function that may only be
called once. -/
theorem C3_single_invocation {R : Type} {ts : List Type} (i : Nat)
    (t : HList ts) (hi : i < ts.length) (g : ts[i] → R) :
    (internal_map_tuple_st i t hi (fun x log => (g x, log ++ [x])) []).2
      = [t.get i hi] ∧
    (internal_map_tuple_st i t hi (fun x log => (g x, log ++ [x])) []).1
      = internal_map_tuple i t hi g :=
  ⟨by rw [internal_map_tuple_st_snd]; simp,
   internal_map_tuple_st_fst i t hi _ []⟩

/-- Witness for C3 on `(5, true)` at index 1: the recorded call log is
exactly `[true]`. -/
theorem C3_witness :
    (1 < 2) ∧
    (internal_map_tuple_st 1 witness_pair (by decide)
        (fun (x : Bool) (log : List Bool) => (Bool.not x, log ++ [x])) []).2
      = [witness_pair.get 1 (by decide)] :=
  ⟨by decide, (C3_single_invocation 1 witness_pair (by decide) Bool.not).1⟩

/-- Claim C4, counterexample: the claim says the mapping operation is
defined for every calling convention, including a closure that mutates
captured state; but every generated impl requires `F: Fn`, which such a
closure does not implement, so the operation is not defined for it. -/
theorem C4_counterexample :
    mapt_accepts CallKind.closureMutCapture = false := rfl

/-- Claim C4 as amended: the mapping operation accepts exactly the
callables implementing `Fn` — a plain function reference and closures
needing no or only shared access to captured state — and rejects a closure
requiring exclusive mutable access to captured state at compile time. -/
theorem C4_fn_bound :
    mapt_accepts CallKind.fnRef = true ∧
    mapt_accepts CallKind.closureNoCapture = true ∧
    mapt_accepts CallKind.closureSharedCapture = true ∧
    mapt_accepts CallKind.closureMutCapture = false := by decide

/-- Claim C5: a mutation the transformation function makes to state it has
exclusive access to is observable by the caller after the call returns: in
the state-passing view, mapping with a function that steps a cursor leaves
the returned cursor advanced by exactly one step from its initial value. -/
theorem C5_mutation_observable {R σ : Type} {ts : List Type} (i : Nat)
    (t : HList ts) (hi : i < ts.length) (g : ts[i] → R)
    (step : σ → σ) (c : σ) :
    (internal_map_tuple_st i t hi (fun x s => (g x, step s)) c).2 = step c :=
  internal_map_tuple_st_snd i t hi _ c

/-- Witness for C5 on `(5, true)` at index 1 with a cursor starting at 0:
the cursor comes back advanced to `0 + 1`. -/
theorem C5_witness :
    (1 < 2) ∧
    (internal_map_tuple_st 1 witness_pair (by decide)
        (fun (x : Bool) (s : Nat) => (Bool.not x, s + 1)) 0).2 = 0 + 1 :=
  ⟨by decide,
   C5_mutation_observable 1 witness_pair (by decide) Bool.not (fun s => s + 1) 0⟩

/-- Claim C6: mapping at two distinct indices commutes: for `a ≠ b`,
mapping index `a` with `f` and then index `b` with `g` yields the same
final tuple as mapping in the other order (the `cast`s transport each
function along the fact that the other mapping did not change the type at
its position, and are the identity on values). -/
theorem C6_maps_commute {Ra Rb : Type} : ∀ {ts : List Type} (a b : Nat)
    (hab : a ≠ b) (ha : a < ts.length) (hb : b < ts.length) (t : HList ts)
    (f : ts[a] → Ra) (g : ts[b] → Rb)
    (hb2 : b < (ts.set a Ra).length) (ha2 : a < (ts.set b Rb).length)
    (e1 : (ts.set a Ra)[b] = ts[b]) (e2 : (ts.set b Rb)[a] = ts[a]),
    HEq (internal_map_tuple b (internal_map_tuple a t ha f) hb2
           (fun x => g (cast e1 x)))
        (internal_map_tuple a (internal_map_tuple b t hb g) ha2
           (fun x => f (cast e2 x)))
  | [], _, _, _, ha, _, _, _, _, _, _, _, _ => absurd ha (Nat.not_lt_zero _)
  | _ :: _, 0, 0, hab, _, _, _, _, _, _, _, _, _ => absurd rfl hab
  | _ :: _, 0, _ + 1, _, _, _, .cons _ _, _, _, _, _, _, _ => by
      simp only [internal_map_tuple, cast_eq]
      exact HEq.rfl
  | _ :: _, _ + 1, 0, _, _, _, .cons _ _, _, _, _, _, _, _ => by
      simp only [internal_map_tuple, cast_eq]
      exact HEq.rfl
  | _ :: _, a + 1, b + 1, hab, ha, hb, .cons x xs, f, g, hb2, ha2, e1, e2 => by
      have hab2 : a ≠ b := fun h => hab (congrArg Nat.succ h)
      simp only [internal_map_tuple]
      exact HList.cons_heq x (List.set_comm _ _ _ hab2)
        (C6_maps_commute a b hab2 (Nat.lt_of_succ_lt_succ ha)
          (Nat.lt_of_succ_lt_succ hb) xs f g (Nat.lt_of_succ_lt_succ hb2)
          (Nat.lt_of_succ_lt_succ ha2) e1 e2)

/-- Witness for C6 on `(5, true)` with indices 0 and 1, successor and
negation: both orders produce the same tuple `(6, false)`. -/
theorem C6_witness :
    ((0 : Nat) ≠ 1) ∧
    HEq (internal_map_tuple 1 (internal_map_tuple 0 witness_pair (by decide) Nat.succ)
          (by decide) (fun x => Bool.not (cast rfl x)))
        (internal_map_tuple 0 (internal_map_tuple 1 witness_pair (by decide) Bool.not)
          (by decide) (fun x => Nat.succ (cast rfl x))) :=
  ⟨by decide,
   C6_maps_commute 0 1 (by decide) (by decide) (by decide) witness_pair
     Nat.succ Bool.not (by decide) (by decide) rfl rfl⟩

/-- Claim C7: the tuple64 tier generates the mapping capability for every
(size, index) pair with `1 ≤ size ≤ 64` and `index < size`, not solely for
size 64; and the set generated by the tuple128 tier strictly contains the
set generated by the tuple64 tier. -/
theorem C7_tier_inclusion :
    (∀ s i, 1 ≤ s → s ≤ 64 → i < s → (s, i) ∈ generatedPairs 64) ∧
    (∀ p, p ∈ generatedPairs 64 → p ∈ generatedPairs 128) ∧
    (128, 0) ∈ generatedPairs 128 ∧ (128, 0) ∉ generatedPairs 64 := by
  refine ⟨?_, ?_, ?_, ?_⟩
  · intro s i h1 h2 h3
    rw [generatedPairs_mem 64 s i (by omega)]
    omega
  · intro p hp
    obtain ⟨s, i⟩ := p
    rw [generatedPairs_mem 64 s i (by omega)] at hp
    rw [generatedPairs_mem 128 s i (by omega)]
    omega
  · rw [generatedPairs_mem 128 128 0 (by omega)]
    omega
  · rw [generatedPairs_mem 64 128 0 (by omega)]
    omega

/-- Witness for C7: the tier-64 expansion contains the impl for 5-tuples
at index 2. -/
theorem C7_witness :
    (1 ≤ 5 ∧ 5 ≤ 64 ∧ 2 < 5) ∧ (5, 2) ∈ generatedPairs 64 :=
  ⟨by decide, C7_tier_inclusion.1 5 2 (by decide) (by decide) (by decide)⟩

/-- Claim C8: for every type-correct call, the mapping succeeds at the
value level: in the error-tracking view, running the generated body with
any non-failing transformation function never produces an error, a
fallback or a default — it returns exactly the pure mapping result. -/
theorem C8_no_error_path {R : Type} : ∀ {ts : List Type} (i : Nat)
    (t : HList ts) (hi : i < ts.length) (f : ts[i] → R),
    internal_map_tuple_checked i t hi (fun x => Except.ok (f x))
      = Except.ok (internal_map_tuple i t hi f)
  | [], _, _, hi, _ => absurd hi (Nat.not_lt_zero _)
  | _ :: _, 0, .cons _ _, _, _ => rfl
  | _ :: _, i + 1, .cons x xs, hi, f => by
      exact (congrArg (Except.map fun ys => HList.cons x ys)
        (C8_no_error_path i xs (Nat.lt_of_succ_lt_succ hi) f)).trans rfl

/-- Witness for C8 on `(5, true)` at index 1: the checked run returns
`.ok` of the pure mapping. -/
theorem C8_witness :
    (1 < 2) ∧
    internal_map_tuple_checked 1 witness_pair (by decide)
        (fun x => Except.ok (Bool.not x))
      = Except.ok (internal_map_tuple 1 witness_pair (by decide) Bool.not) :=
  ⟨by decide, C8_no_error_path 1 witness_pair (by decide) Bool.not⟩

/-- Claim C9: for every combination of the four tier features, exactly one
of the five cfg gates holds, so exactly one size tier is generated per
build; with no tier feature enabled, the default tier of maximum size 8
is the one generated. -/
theorem C9_one_tier_per_build :
    (∀ b16 b32 b64 b128 : Bool,
      (activeTierSizes ⟨b16, b32, b64, b128⟩).length = 1) ∧
    activeTierSizes ⟨false, false, false, false⟩ = [8] := by decide

/-- Claim C10: the public entry point `mapt` is a pure forwarder: for every
tuple, index and transformation function it returns exactly what the
internal capability `internal_map_tuple` returns. -/
theorem C10_dispatch_is_forwarder {R : Type} {ts : List Type} (i : Nat)
    (t : HList ts) (hi : i < ts.length) (f : ts[i] → R) :
    mapt i t hi f = internal_map_tuple i t hi f := rfl

/-- Witness for C10 on `(5, true)` at index 1. -/
theorem C10_witness :
    (1 < 2) ∧
    mapt 1 witness_pair (by decide) Bool.not
      = internal_map_tuple 1 witness_pair (by decide) Bool.not :=
  ⟨by decide, C10_dispatch_is_forwarder 1 witness_pair (by decide) Bool.not⟩

end MapTuple
